import Mathlib

/-!
Verification of the gomoku platform: board primitives (`gomoku/gomoku.py`),
the three-stage search engine (`gomoku/search.py`) and the match driver
(`match.py`), embedded shallowly.

A board is a list of rows of integer cells (0 = empty, 1 and 2 = the two
players), mirroring the N×N integer array of `create_board`.  Reads are
total: out-of-range reads return 0, which is sound because every embedded
function guards its reads by the same bounds checks as the source.
-/

namespace Gomoku

/-- A board: rows of integer cells. 0 = empty, 1 / 2 = the players. -/
abbrev Board := List (List Int)

/-- `board.shape[0]` of the numpy array: the number of rows. -/
def shape0 (board : Board) : Nat := board.length

/-- `board.shape[1]` of the numpy array: the length of a row (numpy arrays
are rectangular, so the first row is representative). -/
def shape1 (board : Board) : Nat := (board.headD []).length

/-- The board is a well-formed square grid of side `n` (numpy
`create_board` always produces this shape). -/
def WF (n : Nat) (board : Board) : Prop :=
  board.length = n ∧ ∀ row ∈ board, row.length = n

instance (n : Nat) (board : Board) : Decidable (WF n board) := by
  unfold WF; infer_instance

/-- `board[x][y]`: total read, 0 when out of range.  Every embedded
function only reads it under the source's own bounds guard. -/
def cell (board : Board) (x y : Int) : Int :=
  if 0 ≤ x ∧ 0 ≤ y then (board.getD x.toNat []).getD y.toNat 0 else 0

/-- `board[row][col] = v`: functional update of one cell. -/
def setCell (board : Board) (row col : Int) (v : Int) : Board :=
  board.set row.toNat ((board.getD row.toNat []).set col.toNat v)

/-- The square bounds check of `gomoku.py` (`board_size = len(board)` is
used for both coordinates). -/
def sqChk (board : Board) (x y : Int) : Bool :=
  decide (0 ≤ x ∧ x < (board.length : Int) ∧ 0 ≤ y ∧ y < (board.length : Int))

/-- The rectangular bounds check of `search.py`
(`0 <= x < board.shape[0] and 0 <= y < board.shape[1]`). -/
def rectChk (board : Board) (x y : Int) : Bool :=
  decide (0 ≤ x ∧ x < (shape0 board : Int) ∧ 0 ≤ y ∧ y < (shape1 board : Int))

/-- One step of the stone-counting `while` loops: the cell passes the
bounds check and holds the sought player value. -/
def good (board : Board) (p : Int) (chk : Int → Int → Bool) (x y : Int) : Prop :=
  chk x y = true ∧ cell board x y = p

instance (board : Board) (p : Int) (chk : Int → Int → Bool) (x y : Int) :
    Decidable (good board p chk x y) := by
  unfold good; infer_instance

/-- The `while 0 <= x < … and board[x][y] == player` counting loop of
`check_win`, `Search._check_win` and `Search._evaluate_line`: number of
consecutive cells equal to `p` along direction `(dx, dy)` starting at
`(x, y)`, fuel-bounded (every call site passes fuel exceeding any possible
run, see `run_eq_maxRun`). -/
def run (board : Board) (p : Int) (chk : Int → Int → Bool) (dx dy : Int) :
    Nat → Int → Int → Nat
  | 0, _, _ => 0
  | (f + 1), x, y =>
      if good board p chk x y then
        run board p chk dx dy f (x + dx) (y + dy) + 1
      else 0

/-- The four scan directions of `check_win`, `_check_win`,
`_evaluate_player`: horizontal, vertical and the two diagonals. -/
def directions : List (Int × Int) := [(0, 1), (1, 0), (1, 1), (1, -1)]

/-- `is_valid_move(board, row, col)` from `gomoku.py`: in the square
bounds and the target cell empty. -/
def is_valid_move (board : Board) (row col : Int) : Bool :=
  decide (0 ≤ row ∧ row < (board.length : Int) ∧ 0 ≤ col ∧
      col < (board.length : Int) ∧ cell board row col = 0)

/-- `make_move(board, row, col, player)` from `gomoku.py`.  The Python
function mutates the board and returns a Bool; the embedding returns the
Bool together with the resulting board. -/
def make_move (board : Board) (row col player : Int) : Bool × Board :=
  if is_valid_move board row col then (true, setCell board row col player)
  else (false, board)

/-- `check_win(board, row, col)` from `gomoku.py`: for each of the 4
directions, 1 (the cell itself) plus the two directed runs, winning iff
some total reaches 5. -/
def check_win (board : Board) (row col : Int) : Bool :=
  let p := cell board row col
  let F := 2 * board.length + 5
  directions.any fun d =>
    decide (5 ≤ 1 + run board p (sqChk board) d.1 d.2 F (row + d.1) (col + d.2)
        + run board p (sqChk board) (-d.1) (-d.2) F (row - d.1) (col - d.2))

/-! ### Basic facts about `run` -/

theorem run_chain (board : Board) (p : Int) (chk : Int → Int → Bool) (dx dy : Int) :
    ∀ (f : Nat) (x y : Int) (i : Nat), i < run board p chk dx dy f x y →
      good board p chk (x + i * dx) (y + i * dy) := by
  intro f
  induction f with
  | zero => intro x y i hi; simp [run] at hi
  | succ f ih =>
    intro x y i hi
    rw [run] at hi
    split at hi
    · next hg =>
      match i with
      | 0 => simpa using hg
      | (j + 1) =>
        have hj := ih (x + dx) (y + dy) j (by omega)
        have : x + dx + j * dx = x + (j + 1 : Nat) * dx := by push_cast; ring
        have h2 : y + dy + j * dy = y + (j + 1 : Nat) * dy := by push_cast; ring
        rwa [this, h2] at hj
    · omega

theorem chain_le_run (board : Board) (p : Int) (chk : Int → Int → Bool) (dx dy : Int) :
    ∀ (f k : Nat) (x y : Int), k ≤ f →
      (∀ i : Nat, i < k → good board p chk (x + i * dx) (y + i * dy)) →
      k ≤ run board p chk dx dy f x y := by
  intro f
  induction f with
  | zero => intro k x y hk _; omega
  | succ f ih =>
    intro k x y hk hchain
    match k with
    | 0 => omega
    | (j + 1) =>
      have h0 : good board p chk x y := by simpa using hchain 0 (by omega)
      rw [run, if_pos h0]
      have : j ≤ run board p chk dx dy f (x + dx) (y + dy) := by
        refine ih j (x + dx) (y + dy) (by omega) ?_
        intro i hi
        have := hchain (i + 1) (by omega)
        have hx : x + (i + 1 : Nat) * dx = x + dx + i * dx := by push_cast; ring
        have hy : y + (i + 1 : Nat) * dy = y + dy + i * dy := by push_cast; ring
        rwa [hx, hy] at this
      omega

/-- If the bounds check confines each coordinate, a chain of good cells
along a direction with a unit component cannot be longer than the sum of
the two bounds. -/
theorem chain_bounded (board : Board) (p : Int) (chk : Int → Int → Bool)
    (dx dy : Int) (M1 M2 : Nat)
    (hchk : ∀ x y, chk x y = true → 0 ≤ x ∧ x < (M1 : Int) ∧ 0 ≤ y ∧ y < (M2 : Int))
    (hd : dx = 1 ∨ dx = -1 ∨ dy = 1 ∨ dy = -1) (x y : Int) (k : Nat)
    (hchain : ∀ i : Nat, i < k → good board p chk (x + i * dx) (y + i * dy)) :
    k ≤ M1 + M2 := by
  match k with
  | 0 => omega
  | (j + 1) =>
    have h0 := hchk _ _ (hchain 0 (by omega)).1
    have hj := hchk _ _ (hchain j (by omega)).1
    simp only [Nat.cast_zero, zero_mul, add_zero] at h0
    rcases hd with h | h | h | h <;> subst h
    · have := h0.1; have := hj.2.1
      have hje : x + (j : Int) * 1 = x + j := by ring
      omega
    · have := h0.2.1; have := hj.1
      have hje : x + (j : Int) * (-1) = x - j := by ring
      omega
    · have := h0.2.2.1; have := hj.2.2.2
      have hje : y + (j : Int) * 1 = y + j := by ring
      omega
    · have := h0.2.2.2; have := hj.2.2.1
      have hje : y + (j : Int) * (-1) = y - j := by ring
      omega

/-! ### List update helpers -/

theorem getD_set_self {α : Type _} : ∀ (l : List α) (i : Nat) (v d : α),
    i < l.length → (l.set i v).getD i d = v := by
  intro l
  induction l with
  | nil => intro i v d h; simp at h
  | cons a t ih =>
    intro i v d h
    match i with
    | 0 => rfl
    | (j + 1) =>
      simp only [List.set, List.getD, List.get?]
      exact ih j v d (by simpa using h)

theorem getD_set_ne {α : Type _} : ∀ (l : List α) (i j : Nat) (v d : α),
    i ≠ j → (l.set i v).getD j d = l.getD j d := by
  intro l
  induction l with
  | nil => intro i j v d _; simp [List.set]
  | cons a t ih =>
    intro i j v d hij
    match i, j with
    | 0, 0 => omega
    | 0, (j + 1) => rfl
    | (i + 1), 0 => rfl
    | (i + 1), (j + 1) =>
      simp only [List.set, List.getD, List.get?]
      exact ih i j v d (by omega)

theorem getD_mem {α : Type _} : ∀ (l : List α) (i : Nat) (d : α),
    i < l.length → l.getD i d ∈ l := by
  intro l
  induction l with
  | nil => intro i d h; simp at h
  | cons a t ih =>
    intro i d h
    match i with
    | 0 => exact List.mem_cons_self a t
    | (j + 1) => exact List.mem_cons_of_mem a (ih j d (by simpa using h))

theorem getD_of_length_le {α : Type _} : ∀ (l : List α) (i : Nat) (d : α),
    l.length ≤ i → l.getD i d = d := by
  intro l
  induction l with
  | nil => intro i d _; simp [List.getD]
  | cons a t ih =>
    intro i d h
    match i with
    | 0 => simp at h
    | (j + 1) =>
      simp only [List.getD, List.get?]
      exact ih j d (by simpa using h)

/-- On a well-formed square board, a nonzero cell read is in bounds. -/
theorem cell_ne_zero_bounds {n : Nat} {board : Board} (hwf : WF n board)
    {x y : Int} (h : cell board x y ≠ 0) :
    0 ≤ x ∧ x < (n : Int) ∧ 0 ≤ y ∧ y < (n : Int) := by
  by_cases hx : 0 ≤ x ∧ 0 ≤ y
  · refine ⟨hx.1, ?_, hx.2, ?_⟩
    · by_contra hlt
      have hge : n ≤ x.toNat := by omega
      have : cell board x y = 0 := by
        unfold cell
        rw [if_pos hx, getD_of_length_le board x.toNat [] (by rw [hwf.1]; omega)]
        simp [List.getD]
      exact h this
    · by_contra hlt
      have hge : n ≤ y.toNat := by omega
      by_cases hxr : x.toNat < board.length
      · have hrow : board.getD x.toNat [] ∈ board := getD_mem board x.toNat [] hxr
        have hlen : (board.getD x.toNat []).length = n := hwf.2 _ hrow
        have : cell board x y = 0 := by
          unfold cell
          rw [if_pos hx, getD_of_length_le _ y.toNat 0 (by omega)]
        exact h this
      · have : cell board x y = 0 := by
          unfold cell
          rw [if_pos hx, getD_of_length_le board x.toNat [] (by omega)]
          simp [List.getD]
        exact h this
  · exact absurd (by unfold cell at h; rw [if_neg hx] at h; exact h rfl) id

/-- On a well-formed square board, a nonzero cell read passes the square
bounds check of `gomoku.py`. -/
theorem cell_ne_zero_sqChk {n : Nat} {board : Board} (hwf : WF n board)
    {x y : Int} (h : cell board x y ≠ 0) : sqChk board x y = true := by
  have hb := cell_ne_zero_bounds hwf h
  unfold sqChk
  rw [hwf.1]
  exact decide_eq_true_iff.mpr ⟨hb.1, hb.2.1, hb.2.2.1, hb.2.2.2⟩

/-- Spec-side reading of the win condition: some of the 4 line directions
holds a window of 5 consecutive cells, all equal to `p`, one of which
(offset `b` from the start of the window) is `(r, c)` itself. -/
def specFiveInRowThrough (board : Board) (r c p : Int) : Prop :=
  ∃ d ∈ directions, ∃ b : Nat, b ≤ 4 ∧ ∀ i : Nat, i ≤ 4 →
    cell board (r + ((i : Int) - (b : Int)) * d.1)
      (c + ((i : Int) - (b : Int)) * d.2) = p

instance (board : Board) (r c p : Int) :
    Decidable (specFiveInRowThrough board r c p) := by
  unfold specFiveInRowThrough; infer_instance

/-- C1: the game driver's `check_win(board, r, c)` returns true iff one of
the 4 line directions through `(r, c)` carries at least 5 contiguous
stones of the player occupying `(r, c)`, counting `(r, c)` itself and
extending both ways; false when no such line exists. -/
theorem check_win_iff_specFiveInRowThrough (n : Nat) (board : Board) (r c : Int)
    (hwf : WF n board) (hocc : cell board r c ≠ 0) :
    check_win board r c = true ↔
      specFiveInRowThrough board r c (cell board r c) := by
  have hcw : check_win board r c = true ↔ ∃ d, d ∈ directions ∧
      5 ≤ 1 + run board (cell board r c) (sqChk board) d.1 d.2
            (2 * board.length + 5) (r + d.1) (c + d.2)
          + run board (cell board r c) (sqChk board) (-d.1) (-d.2)
            (2 * board.length + 5) (r - d.1) (c - d.2) := by
    simp only [check_win, List.any_eq_true, decide_eq_true_eq]
  rw [hcw]
  constructor
  · rintro ⟨d, hd, hcount⟩
    set p := cell board r c with hp
    set c1 := run board p (sqChk board) d.1 d.2
        (2 * board.length + 5) (r + d.1) (c + d.2) with hc1
    set c2 := run board p (sqChk board) (-d.1) (-d.2)
        (2 * board.length + 5) (r - d.1) (c - d.2) with hc2
    refine ⟨d, hd, min c2 4, by omega, ?_⟩
    intro i hi
    rcases Nat.lt_trichotomy i (min c2 4) with hib | hib | hib
    · -- a cell of the backward run
      have hj : (min c2 4) - i - 1 < c2 := by omega
      have hg := run_chain board p (sqChk board) (-d.1) (-d.2)
        (2 * board.length + 5) (r - d.1) (c - d.2) ((min c2 4) - i - 1)
        (by rw [← hc2]; exact hj)
      have hb' : ((min c2 4 : Nat) : Int) =
          (i : Int) + (((min c2 4) - i - 1 : Nat) : Int) + 1 := by push_cast; omega
      have e1 : r + ((i : Int) - ((min c2 4 : Nat) : Int)) * d.1 =
          r - d.1 + (((min c2 4) - i - 1 : Nat) : Int) * (-d.1) := by
        rw [hb']; ring
      have e2 : c + ((i : Int) - ((min c2 4 : Nat) : Int)) * d.2 =
          c - d.2 + (((min c2 4) - i - 1 : Nat) : Int) * (-d.2) := by
        rw [hb']; ring
      rw [e1, e2]
      exact hg.2
    · -- the centre cell itself
      subst hib
      simp
    · -- a cell of the forward run
      have hb4 : min c2 4 = c2 := by omega
      have hc1ge : 4 - min c2 4 ≤ c1 := by omega
      have hj : i - (min c2 4) - 1 < c1 := by omega
      have hg := run_chain board p (sqChk board) d.1 d.2
        (2 * board.length + 5) (r + d.1) (c + d.2) (i - (min c2 4) - 1)
        (by rw [← hc1]; exact hj)
      have hb' : (i : Int) =
          ((min c2 4 : Nat) : Int) + ((i - (min c2 4) - 1 : Nat) : Int) + 1 := by
        push_cast; omega
      have e1 : r + ((i : Int) - ((min c2 4 : Nat) : Int)) * d.1 =
          r + d.1 + ((i - (min c2 4) - 1 : Nat) : Int) * d.1 := by
        rw [hb']; ring
      have e2 : c + ((i : Int) - ((min c2 4 : Nat) : Int)) * d.2 =
          c + d.2 + ((i - (min c2 4) - 1 : Nat) : Int) * d.2 := by
        rw [hb']; ring
      rw [e1, e2]
      exact hg.2
  · rintro ⟨d, hd, b, hb4, hwin⟩
    refine ⟨d, hd, ?_⟩
    have hfwd : 4 - b ≤ run board (cell board r c) (sqChk board) d.1 d.2
        (2 * board.length + 5) (r + d.1) (c + d.2) := by
      refine chain_le_run board (cell board r c) (sqChk board) d.1 d.2
        (2 * board.length + 5) (4 - b) (r + d.1) (c + d.2) (by omega) ?_
      intro t ht
      have hi := hwin (b + 1 + t) (by omega)
      have hb' : ((b + 1 + t : Nat) : Int) - (b : Int) = (t : Int) + 1 := by
        push_cast; omega
      rw [hb'] at hi
      have e1 : r + ((t : Int) + 1) * d.1 = r + d.1 + (t : Int) * d.1 := by ring
      have e2 : c + ((t : Int) + 1) * d.2 = c + d.2 + (t : Int) * d.2 := by ring
      rw [e1, e2] at hi
      exact ⟨cell_ne_zero_sqChk hwf (by rw [hi]; exact hocc), hi⟩
    have hbwd : b ≤ run board (cell board r c) (sqChk board) (-d.1) (-d.2)
        (2 * board.length + 5) (r - d.1) (c - d.2) := by
      refine chain_le_run board (cell board r c) (sqChk board) (-d.1) (-d.2)
        (2 * board.length + 5) b (r - d.1) (c - d.2) (by omega) ?_
      intro t ht
      have hi := hwin (b - 1 - t) (by omega)
      have hb' : ((b - 1 - t : Nat) : Int) - (b : Int) = -((t : Int) + 1) := by
        omega
      rw [hb'] at hi
      have e1 : r + -((t : Int) + 1) * d.1 = r - d.1 + (t : Int) * (-d.1) := by ring
      have e2 : c + -((t : Int) + 1) * d.2 = c - d.2 + (t : Int) * (-d.2) := by ring
      rw [e1, e2] at hi
      exact ⟨cell_ne_zero_sqChk hwf (by rw [hi]; exact hocc), hi⟩
    omega

/-- A 5×5 board whose first row is five stones of player 1. -/
def bC1 : Board :=
  [[1, 1, 1, 1, 1], [2, 2, 2, 2, 0], [0, 0, 0, 0, 0], [0, 0, 0, 0, 0],
    [0, 0, 0, 0, 0]]

theorem check_win_iff_witness :
    WF 5 bC1 ∧ cell bC1 0 2 ≠ 0 ∧
      (check_win bC1 0 2 = true ↔
        specFiveInRowThrough bC1 0 2 (cell bC1 0 2)) :=
  ⟨by decide, by decide,
    check_win_iff_specFiveInRowThrough 5 bC1 0 2 (by decide) (by decide)⟩

/-! ### `make_move` (claim C3) -/

theorem set_of_length_le {α : Type _} : ∀ (l : List α) (i : Nat) (v : α),
    l.length ≤ i → l.set i v = l := by
  intro l
  induction l with
  | nil => intro i v _; rfl
  | cons a t ih =>
    intro i v h
    match i with
    | 0 => simp at h
    | (j + 1) =>
      simp only [List.set]
      rw [ih j v (by simpa using h)]

theorem cell_setCell_self {n : Nat} {board : Board} (hwf : WF n board)
    (row col v : Int) (hb : 0 ≤ row ∧ row < (n : Int) ∧ 0 ≤ col ∧ col < (n : Int)) :
    cell (setCell board row col v) row col = v := by
  obtain ⟨h1, h2, h3, h4⟩ := hb
  have hrn : row.toNat < board.length := by rw [hwf.1]; omega
  have hrow : board.getD row.toNat [] ∈ board := getD_mem board row.toNat [] hrn
  have hcl : col.toNat < (board.getD row.toNat []).length := by
    rw [hwf.2 _ hrow]; omega
  unfold cell setCell
  rw [if_pos ⟨h1, h3⟩,
    getD_set_self board row.toNat _ [] hrn,
    getD_set_self _ col.toNat v 0 hcl]

theorem cell_setCell_ne (board : Board) (row col v x y : Int)
    (hrow : 0 ≤ row) (hcol : 0 ≤ col) (hne : ¬(x = row ∧ y = col)) :
    cell (setCell board row col v) x y = cell board x y := by
  by_cases hxy : 0 ≤ x ∧ 0 ≤ y
  · unfold cell setCell
    rw [if_pos hxy, if_pos hxy]
    by_cases hx : x = row
    · subst hx
      have hyc : y ≠ col := fun h => hne ⟨rfl, h⟩
      have hyc' : col.toNat ≠ y.toNat := by omega
      by_cases hrn : x.toNat < board.length
      · rw [getD_set_self board x.toNat _ [] hrn,
          getD_set_ne _ col.toNat y.toNat v 0 hyc']
      · rw [set_of_length_le board x.toNat _ (by omega)]
    · have hx' : row.toNat ≠ x.toNat := by omega
      rw [getD_set_ne board row.toNat x.toNat _ [] hx']
  · unfold cell setCell
    rw [if_neg hxy, if_neg hxy]

/-- C3: `make_move(board, r, c, player)` returns false and leaves the
board unchanged iff `(r, c)` is out of bounds or occupied; otherwise it
returns true, writes `player` into `(r, c)` and leaves every other cell
unchanged. -/
theorem make_move_spec (n : Nat) (board : Board) (row col player : Int)
    (hwf : WF n board) :
    ((make_move board row col player = (false, board)) ↔
      ¬(0 ≤ row ∧ row < (n : Int) ∧ 0 ≤ col ∧ col < (n : Int) ∧
        cell board row col = 0))
    ∧ ((0 ≤ row ∧ row < (n : Int) ∧ 0 ≤ col ∧ col < (n : Int) ∧
        cell board row col = 0) →
        (make_move board row col player).1 = true ∧
        cell (make_move board row col player).2 row col = player ∧
        ∀ x y : Int, ¬(x = row ∧ y = col) →
          cell (make_move board row col player).2 x y = cell board x y) := by
  have hvalid : is_valid_move board row col = true ↔
      (0 ≤ row ∧ row < (n : Int) ∧ 0 ≤ col ∧ col < (n : Int) ∧
        cell board row col = 0) := by
    unfold is_valid_move
    rw [hwf.1]
    exact decide_eq_true_iff
  constructor
  · constructor
    · intro heq hv
      have hvm := hvalid.mpr hv
      unfold make_move at heq
      rw [if_pos hvm] at heq
      exact absurd (congrArg Prod.fst heq) (by simp)
    · intro hv
      unfold make_move
      rw [if_neg (fun h => hv (hvalid.mp h))]
  · intro hv
    have hvm := hvalid.mpr hv
    unfold make_move
    rw [if_pos hvm]
    refine ⟨rfl, ?_, ?_⟩
    · exact cell_setCell_self hwf row col player ⟨hv.1, hv.2.1, hv.2.2.1, hv.2.2.2.1⟩
    · intro x y hne
      exact cell_setCell_ne board row col player x y hv.1 hv.2.2.1 hne

/-- A 2×2 board with a single stone at (1, 1). -/
def bC3 : Board := [[0, 0], [0, 1]]

theorem make_move_spec_witness :
    WF 2 bC3 ∧
      ((make_move bC3 0 1 2 = (false, bC3) ↔
        ¬(0 ≤ (0 : Int) ∧ (0 : Int) < (2 : Int) ∧ 0 ≤ (1 : Int) ∧
          (1 : Int) < (2 : Int) ∧ cell bC3 0 1 = 0))
      ∧ ((0 ≤ (0 : Int) ∧ (0 : Int) < (2 : Int) ∧ 0 ≤ (1 : Int) ∧
          (1 : Int) < (2 : Int) ∧ cell bC3 0 1 = 0) →
          (make_move bC3 0 1 2).1 = true ∧
          cell (make_move bC3 0 1 2).2 0 1 = 2 ∧
          ∀ x y : Int, ¬(x = 0 ∧ y = 1) →
            cell (make_move bC3 0 1 2).2 x y = cell bC3 x y)) :=
  ⟨by decide, make_move_spec 2 bC3 0 1 2 (by decide)⟩

/-! ### `Search._check_win` (claim C2) -/

/-- `Search._check_win(board, move)` from `search.py`.  Note the source
compares the combined count against 4, not 5. -/
def searchCheckWin (board : Board) (move : Option (Int × Int)) : Bool :=
  match move with
  | none => false
  | some m =>
    let p := cell board m.1 m.2
    let F := shape0 board + shape1 board + 5
    directions.any fun d =>
      decide (4 ≤ 1 + run board p (rectChk board) d.1 d.2 F (m.1 + d.1) (m.2 + d.2)
          + run board p (rectChk board) (-d.1) (-d.2) F (m.1 - d.1) (m.2 - d.2))

/-- A 5×5 board with exactly four stones of player 1 in a row. -/
def bC2 : Board :=
  [[1, 1, 1, 1, 0], [0, 0, 0, 0, 0], [0, 0, 0, 0, 0], [0, 0, 0, 0, 0],
    [0, 0, 0, 0, 0]]

/-- C2: on a board whose longest line through the last move has only 4
stones, `Search._check_win` reports a win even though the game's win
check (`check_win`, threshold 5) and the 5-in-a-row predicate both
reject it: the `count >= 4` comparison in the source is a slip for
`count >= 5`. -/
theorem searchCheckWin_counts_four_as_win :
    searchCheckWin bC2 (some (0, 3)) = true ∧ check_win bC2 0 3 = false ∧
      ¬ specFiveInRowThrough bC2 0 3 (cell bC2 0 3) := by decide

/-! ### The line evaluator (claims C4 and C5) -/

/-- The blocked-end test of `Search._evaluate_line`: the scan stopped
off the board or on an opponent stone. -/
def blockedAfter (board : Board) (p : Int) (x y : Int) : Bool :=
  !(rectChk board x y) || decide (cell board x y = 3 - p)

/-- `Search._evaluate_line(board, row, col, dx, dy, player)`: combined
run length through `(row, col)` (the forward scan starts on the cell
itself, the backward scan on its predecessor), number of blocked ends,
then the pattern table. -/
def evaluate_line (board : Board) (row col dx dy p : Int) : Int :=
  let F := shape0 board + shape1 board + 5
  let c1 := run board p (rectChk board) dx dy F row col
  let b1 : Nat :=
    if blockedAfter board p (row + (c1 : Int) * dx) (col + (c1 : Int) * dy)
    then 1 else 0
  let c2 := run board p (rectChk board) (-dx) (-dy) F (row - dx) (col - dy)
  let b2 : Nat :=
    if blockedAfter board p (row - (1 + (c2 : Int)) * dx)
        (col - (1 + (c2 : Int)) * dy) then 1 else 0
  let count := c1 + c2
  let blocks := b1 + b2
  if 5 ≤ count then 1000000
  else if count = 4 then
    (if blocks = 0 then 100000 else if blocks = 1 then 50000 else 100)
  else if count = 3 then
    (if blocks = 0 then 60000 else if blocks = 1 then 1000 else 10)
  else if count = 2 then
    (if blocks = 0 then 100 else if blocks = 1 then 10 else 5)
  else 1

/-- `Search._evaluate_player(board, player)`: sum of the line values over
every cell holding `player`'s stones and all 4 directions. -/
def evaluate_player (board : Board) (p : Int) : Int :=
  ∑ i ∈ Finset.range (shape0 board), ∑ j ∈ Finset.range (shape1 board),
    if cell board (i : Int) (j : Int) = p then
      (directions.map fun d =>
        evaluate_line board (i : Int) (j : Int) d.1 d.2 p).sum
    else 0

/-- `Search._evaluate_board` seen from player `p`: own score minus the
opponent's (`3 - p`) score. -/
def evaluate_board (board : Board) (p : Int) : Int :=
  evaluate_player board p - evaluate_player board (3 - p)

/-- C5: the board evaluation is antisymmetric in the player:
`evaluateBoard(board, 1) = -evaluateBoard(board, 2)`. -/
theorem evaluate_board_antisymm (board : Board) :
    evaluate_board board 1 = -(evaluate_board board 2) := by
  unfold evaluate_board
  have h1 : (3 : Int) - 1 = 2 := by norm_num
  have h2 : (3 : Int) - 2 = 1 := by norm_num
  rw [h1, h2]
  ring

/-- `chainP … k`: the `k` consecutive cells from `(x, y)` along
`(dx, dy)` all pass the bounds check and hold `p`. -/
def chainP (board : Board) (p : Int) (chk : Int → Int → Bool)
    (dx dy x y : Int) (k : Nat) : Prop :=
  ∀ i : Nat, i < k → good board p chk (x + i * dx) (y + i * dy)

instance (board : Board) (p : Int) (chk : Int → Int → Bool)
    (dx dy x y : Int) (k : Nat) : Decidable (chainP board p chk dx dy x y k) := by
  unfold chainP; infer_instance

/-- Extremal (spec-side) characterisation of a counting `while` loop: the
greatest length, at most `bound`, of an all-`p` chain from `(x, y)`. -/
def maxRun (board : Board) (p : Int) (chk : Int → Int → Bool)
    (dx dy x y : Int) (bound : Nat) : Nat :=
  Nat.findGreatest (chainP board p chk dx dy x y) bound

/-- With enough fuel, the fuel-bounded loop computes the greatest chain
length. -/
theorem run_eq_maxRun (board : Board) (p : Int) (chk : Int → Int → Bool)
    (dx dy : Int) (f bound : Nat) (x y : Int)
    (hbound : ∀ k : Nat, chainP board p chk dx dy x y k → k ≤ bound)
    (hf : bound < f) :
    run board p chk dx dy f x y = maxRun board p chk dx dy x y bound := by
  have hchain : chainP board p chk dx dy x y (run board p chk dx dy f x y) :=
    fun i hi => run_chain board p chk dx dy f x y i hi
  have hrb : run board p chk dx dy f x y ≤ bound := hbound _ hchain
  have h1 : run board p chk dx dy f x y ≤ maxRun board p chk dx dy x y bound :=
    Nat.le_findGreatest hrb hchain
  have h2 : maxRun board p chk dx dy x y bound ≤ run board p chk dx dy f x y := by
    by_cases h0 : maxRun board p chk dx dy x y bound = 0
    · rw [h0]; exact Nat.zero_le _
    · have hP : chainP board p chk dx dy x y (maxRun board p chk dx dy x y bound) :=
        Nat.findGreatest_of_ne_zero rfl h0
      have hle : maxRun board p chk dx dy x y bound ≤ bound :=
        Nat.findGreatest_le bound
      exact chain_le_run board p chk dx dy f _ x y (by omega) hP
  omega

/-- The rectangular bounds check confines coordinates to the shape. -/
theorem rectChk_bounds (board : Board) : ∀ x y : Int,
    rectChk board x y = true →
      0 ≤ x ∧ x < (shape0 board : Int) ∧ 0 ≤ y ∧ y < (shape1 board : Int) := by
  intro x y h
  exact of_decide_eq_true h

/-- Spec: length of the maximal all-own chain starting at the stone and
extending in the `+(dx, dy)` signed direction, the stone included. -/
def specFwdLen (board : Board) (p x y dx dy : Int) : Nat :=
  maxRun board p (rectChk board) dx dy x y (shape0 board + shape1 board)

/-- Spec: length of the maximal all-own chain starting at the stone and
extending in the `-(dx, dy)` signed direction, the stone included. -/
def specBwdLen (board : Board) (p x y dx dy : Int) : Nat :=
  maxRun board p (rectChk board) (-dx) (-dy) x y (shape0 board + shape1 board)

/-- Spec: contiguous run length through the stone, both signed directions
combined, the stone counted once. -/
def specRunThrough (board : Board) (p x y dx dy : Int) : Nat :=
  specFwdLen board p x y dx dy + specBwdLen board p x y dx dy - 1

/-- Spec: how many of the run's two ends are blocked (run off-board or
hit an opponent stone). -/
def specBlocks (board : Board) (p x y dx dy : Int) : Nat :=
  (if blockedAfter board p (x + (specFwdLen board p x y dx dy : Int) * dx)
      (y + (specFwdLen board p x y dx dy : Int) * dy) then 1 else 0) +
  (if blockedAfter board p (x - (specBwdLen board p x y dx dy : Int) * dx)
      (y - (specBwdLen board p x y dx dy : Int) * dy) then 1 else 0)

/-- The scoring table exactly as the claim's table states it. -/
def specTable (runl blocks : Nat) : Int :=
  if 5 ≤ runl then 1000000
  else if runl = 4 then
    (if blocks = 0 then 100000 else if blocks = 1 then 50000 else 100)
  else if runl = 3 then
    (if blocks = 0 then 60000 else if blocks = 1 then 1000 else 10)
  else if runl = 2 then
    (if blocks = 0 then 100 else if blocks = 1 then 10 else 5)
  else 1

/-- Spec: the sum, over every cell owned by `p` and each of the 4
directions, of the table value at the run length through that stone and
its blocked ends. -/
def specScore (board : Board) (p : Int) : Int :=
  ∑ i ∈ Finset.range (shape0 board), ∑ j ∈ Finset.range (shape1 board),
    if cell board (i : Int) (j : Int) = p then
      (directions.map fun d =>
        specTable (specRunThrough board p (i : Int) (j : Int) d.1 d.2)
          (specBlocks board p (i : Int) (j : Int) d.1 d.2)).sum
    else 0

theorem evaluate_line_eq_spec (board : Board) (p x y dx dy : Int)
    (hd : dx = 1 ∨ dx = -1 ∨ dy = 1 ∨ dy = -1)
    (hgood : good board p (rectChk board) x y) :
    evaluate_line board x y dx dy p =
      specTable (specRunThrough board p x y dx dy)
        (specBlocks board p x y dx dy) := by
  have hd2 : -dx = 1 ∨ -dx = -1 ∨ -dy = 1 ∨ -dy = -1 := by
    rcases hd with h | h | h | h <;> rw [h] <;> norm_num
  have hboundF : ∀ k : Nat, chainP board p (rectChk board) dx dy x y k →
      k ≤ shape0 board + shape1 board := fun k hk =>
    chain_bounded board p (rectChk board) dx dy (shape0 board) (shape1 board)
      (rectChk_bounds board) hd x y k hk
  have hboundB : ∀ (a b : Int) (k : Nat),
      chainP board p (rectChk board) (-dx) (-dy) a b k →
      k ≤ shape0 board + shape1 board := fun a b k hk =>
    chain_bounded board p (rectChk board) (-dx) (-dy) (shape0 board) (shape1 board)
      (rectChk_bounds board) hd2 a b k hk
  have hc1 : run board p (rectChk board) dx dy
      (shape0 board + shape1 board + 5) x y = specFwdLen board p x y dx dy :=
    run_eq_maxRun board p (rectChk board) dx dy _ _ x y hboundF (by omega)
  have hstep : run board p (rectChk board) (-dx) (-dy)
      (shape0 board + shape1 board + 5 + 1) x y =
      run board p (rectChk board) (-dx) (-dy)
        (shape0 board + shape1 board + 5) (x - dx) (y - dy) + 1 := by
    rw [run, if_pos hgood]
    have e1 : x + -dx = x - dx := by ring
    have e2 : y + -dy = y - dy := by ring
    rw [e1, e2]
  have hbwd : run board p (rectChk board) (-dx) (-dy)
      (shape0 board + shape1 board + 5 + 1) x y = specBwdLen board p x y dx dy :=
    run_eq_maxRun board p (rectChk board) (-dx) (-dy) _ _ x y (hboundB x y) (by omega)
  have hc2 : run board p (rectChk board) (-dx) (-dy)
      (shape0 board + shape1 board + 5) (x - dx) (y - dy) + 1 =
      specBwdLen board p x y dx dy := by rw [← hstep, hbwd]
  simp only [evaluate_line]
  unfold specRunThrough specBlocks specTable
  rw [hc1]
  have hcount : run board p (rectChk board) dx dy
        (shape0 board + shape1 board + 5) x y +
      run board p (rectChk board) (-dx) (-dy)
        (shape0 board + shape1 board + 5) (x - dx) (y - dy) =
      specFwdLen board p x y dx dy + specBwdLen board p x y dx dy - 1 := by
    omega
  rw [hc1] at hcount
  rw [hcount]
  have hpos2 : (1 : Int) + (run board p (rectChk board) (-dx) (-dy)
      (shape0 board + shape1 board + 5) (x - dx) (y - dy) : Int) =
      (specBwdLen board p x y dx dy : Int) := by
    have := hc2; omega
  rw [hpos2]

theorem good_of_mem_range (board : Board) (p : Int) (i j : Nat)
    (hi : i < shape0 board) (hj : j < shape1 board)
    (hc : cell board (i : Int) (j : Int) = p) :
    good board p (rectChk board) (i : Int) (j : Int) := by
  refine ⟨?_, hc⟩
  unfold rectChk
  refine decide_eq_true_iff.mpr ⟨Int.natCast_nonneg i, ?_, Int.natCast_nonneg j, ?_⟩
  · exact_mod_cast hi
  · exact_mod_cast hj

/-- C4: `Search._evaluate_player(board, p)` equals the sum, over every
cell owned by `p` and each of the 4 directions, of the claim's table
value at the contiguous run length through that stone (both signed
directions combined, the stone counted once) and the number of blocked
ends. -/
theorem evaluate_player_eq_specScore (board : Board) (p : Int) :
    evaluate_player board p = specScore board p := by
  unfold evaluate_player specScore
  refine Finset.sum_congr rfl fun i hi => Finset.sum_congr rfl fun j hj => ?_
  by_cases hc : cell board (i : Int) (j : Int) = p
  · rw [if_pos hc, if_pos hc]
    have hg := good_of_mem_range board p i j (Finset.mem_range.mp hi)
      (Finset.mem_range.mp hj) hc
    simp only [directions, List.map, List.sum_cons, List.sum_nil]
    rw [evaluate_line_eq_spec board p (i : Int) (j : Int) 0 1 (by norm_num) hg,
      evaluate_line_eq_spec board p (i : Int) (j : Int) 1 0 (by norm_num) hg,
      evaluate_line_eq_spec board p (i : Int) (j : Int) 1 1 (by norm_num) hg,
      evaluate_line_eq_spec board p (i : Int) (j : Int) 1 (-1) (by norm_num) hg]
  · rw [if_neg hc, if_neg hc]

/-! ### `Search._get_candidate_moves` (claim C6) -/

/-- `np.sum(board != 0)`: how many stones are on the board. -/
def stoneCount (board : Board) : Nat :=
  ∑ i ∈ Finset.range (shape0 board), ∑ j ∈ Finset.range (shape1 board),
    if cell board (i : Int) (j : Int) ≠ 0 then 1 else 0

/-- `np.sum(board == 0)`: how many empty cells the board has. -/
def emptyCount (board : Board) : Nat :=
  ∑ i ∈ Finset.range (shape0 board), ∑ j ∈ Finset.range (shape1 board),
    if cell board (i : Int) (j : Int) = 0 then 1 else 0

/-- The candidate admission test of `_get_candidate_moves`: in bounds
(`board_size = board.shape[0]` is used for both coordinates) and empty. -/
def candOK (board : Board) (q : Int × Int) : Prop :=
  0 ≤ q.1 ∧ q.1 < (shape0 board : Int) ∧ 0 ≤ q.2 ∧
    q.2 < (shape0 board : Int) ∧ cell board q.1 q.2 = 0

instance (board : Board) (q : Int × Int) : Decidable (candOK board q) := by
  unfold candOK; infer_instance

/-- The admissible cells `(i + di, j + dj)`, `di, dj ∈ [-2, 2]`, added
for one occupied cell `(i, j)`. -/
def neighborCands (board : Board) (i j : Int) : Finset (Int × Int) :=
  (((Finset.Icc (-2 : Int) 2) ×ˢ (Finset.Icc (-2 : Int) 2)).image
    (fun d => (i + d.1, j + d.2))).filter (fun q => candOK board q)

/-- `Search._get_candidate_moves(board)`: the Python function
accumulates into a `set` and returns `list(set)` (order unspecified, no
duplicates); the embedding returns the set itself. -/
def getCandidateMoves (board : Board) : Finset (Int × Int) :=
  if stoneCount board = 0 then
    {(((shape0 board / 2 : Nat) : Int), ((shape0 board / 2 : Nat) : Int))}
  else
    (((Finset.range (shape0 board)) ×ˢ (Finset.range (shape0 board))).filter
      (fun s => cell board (s.1 : Int) (s.2 : Int) ≠ 0)).biUnion
      (fun s => neighborCands board (s.1 : Int) (s.2 : Int))

theorem mem_neighborCands (board : Board) (i j : Int) (q : Int × Int) :
    q ∈ neighborCands board i j ↔
      candOK board q ∧ |q.1 - i| ≤ 2 ∧ |q.2 - j| ≤ 2 := by
  unfold neighborCands
  simp only [Finset.mem_filter, Finset.mem_image, Finset.mem_product,
    Finset.mem_Icc, decide_eq_true_eq]
  constructor
  · rintro ⟨⟨d, ⟨⟨hd1, hd2⟩, ⟨hd3, hd4⟩⟩, heq⟩, hok⟩
    have h1 : q.1 = i + d.1 := by rw [← heq]
    have h2 : q.2 = j + d.2 := by rw [← heq]
    refine ⟨hok, ?_, ?_⟩ <;> rw [abs_le] <;> omega
  · rintro ⟨hok, h1, h2⟩
    rw [abs_le] at h1 h2
    refine ⟨⟨(q.1 - i, q.2 - j), ⟨⟨by omega, by omega⟩, ⟨by omega, by omega⟩⟩, ?_⟩, hok⟩
    show (i + (q.1 - i), j + (q.2 - j)) = q
    have : i + (q.1 - i) = q.1 := by ring
    have h2' : j + (q.2 - j) = q.2 := by ring
    rw [this, h2']

/-- Membership characterisation of the candidate set on a non-empty
board: exactly the admissible cells within Chebyshev distance 2 of some
occupied in-bounds cell. -/
theorem mem_getCandidateMoves (board : Board) (hne : stoneCount board ≠ 0)
    (q : Int × Int) :
    q ∈ getCandidateMoves board ↔
      candOK board q ∧ ∃ s : Int × Int, 0 ≤ s.1 ∧ s.1 < (shape0 board : Int) ∧
        0 ≤ s.2 ∧ s.2 < (shape0 board : Int) ∧ cell board s.1 s.2 ≠ 0 ∧
        |q.1 - s.1| ≤ 2 ∧ |q.2 - s.2| ≤ 2 := by
  unfold getCandidateMoves
  rw [if_neg hne, Finset.mem_biUnion]
  constructor
  · rintro ⟨s, hs, hq⟩
    rw [Finset.mem_filter, Finset.mem_product, Finset.mem_range,
      Finset.mem_range] at hs
    rw [mem_neighborCands] at hq
    refine ⟨hq.1, ((s.1 : Int), (s.2 : Int)), Int.natCast_nonneg _, ?_,
      Int.natCast_nonneg _, ?_, hs.2, hq.2.1, hq.2.2⟩
    · show (s.1 : Int) < (shape0 board : Int)
      exact_mod_cast hs.1.1
    · show (s.2 : Int) < (shape0 board : Int)
      exact_mod_cast hs.1.2
  · rintro ⟨hok, s, h1, h2, h3, h4, hocc, hc1, hc2⟩
    refine ⟨(s.1.toNat, s.2.toNat), ?_, ?_⟩
    · rw [Finset.mem_filter, Finset.mem_product, Finset.mem_range, Finset.mem_range]
      have e1 : ((s.1.toNat : Nat) : Int) = s.1 := Int.toNat_of_nonneg h1
      have e2 : ((s.2.toNat : Nat) : Int) = s.2 := Int.toNat_of_nonneg h3
      refine ⟨⟨by omega, by omega⟩, ?_⟩
      rw [e1, e2]
      exact hocc
    · rw [mem_neighborCands]
      have e1 : ((s.1.toNat : Nat) : Int) = s.1 := Int.toNat_of_nonneg h1
      have e2 : ((s.2.toNat : Nat) : Int) = s.2 := Int.toNat_of_nonneg h3
      rw [e1, e2]
      exact ⟨hok, hc1, hc2⟩

/-- C6: `_get_candidate_moves` returns (deduplicated, modelled as a
finite set) exactly the empty in-bounds cells at Chebyshev distance at
most 2 from some occupied cell, and on a stone-free board exactly the
single center cell `(N / 2, N / 2)`. -/
theorem getCandidateMoves_spec (n : Nat) (board : Board) (hwf : WF n board) :
    (stoneCount board = 0 →
      getCandidateMoves board = {(((n / 2 : Nat) : Int), ((n / 2 : Nat) : Int))})
    ∧ (stoneCount board ≠ 0 → ∀ q : Int × Int,
        q ∈ getCandidateMoves board ↔
          (0 ≤ q.1 ∧ q.1 < (n : Int) ∧ 0 ≤ q.2 ∧ q.2 < (n : Int) ∧
            cell board q.1 q.2 = 0 ∧
            ∃ s : Int × Int, 0 ≤ s.1 ∧ s.1 < (n : Int) ∧ 0 ≤ s.2 ∧
              s.2 < (n : Int) ∧ cell board s.1 s.2 ≠ 0 ∧
              max |q.1 - s.1| |q.2 - s.2| ≤ 2)) := by
  have hs0 : shape0 board = n := hwf.1
  constructor
  · intro h0
    unfold getCandidateMoves
    rw [if_pos h0, hs0]
  · intro hne q
    rw [mem_getCandidateMoves board hne q]
    unfold candOK
    rw [hs0]
    constructor
    · rintro ⟨⟨a1, a2, a3, a4, a5⟩, s, b1, b2, b3, b4, b5, b6, b7⟩
      exact ⟨a1, a2, a3, a4, a5, s, b1, b2, b3, b4, b5, max_le b6 b7⟩
    · rintro ⟨a1, a2, a3, a4, a5, s, b1, b2, b3, b4, b5, b6⟩
      rw [max_le_iff] at b6
      exact ⟨⟨a1, a2, a3, a4, a5⟩, s, b1, b2, b3, b4, b5, b6.1, b6.2⟩

/-- An empty 3×3 board. -/
def bC6 : Board := [[0, 0, 0], [0, 0, 0], [0, 0, 0]]

theorem getCandidateMoves_spec_witness :
    WF 3 bC6 ∧ stoneCount bC6 = 0 ∧
      getCandidateMoves bC6 = {(((3 / 2 : Nat) : Int), ((3 / 2 : Nat) : Int))} :=
  ⟨by decide, by decide, (getCandidateMoves_spec 3 bC6 (by decide)).1 (by decide)⟩

/-! ### Minimax and the stage-3 decision (claim C7) -/

/-- Search values: integers extended with `float("-inf")` and
`float("inf")`, the initial accumulators of the min/max loops. -/
abbrev V := WithBot (WithTop Int)

/-- An ordinary integer score as a search value. -/
def intV (z : Int) : V := ((z : WithTop Int) : WithBot (WithTop Int))

/-- `Search._evaluate_board` as a search value. -/
def evalBoardV (player : Int) (board : Board) : V :=
  intV (evaluate_board board player)

/-- `Search._is_game_over(board, last_move)`: the last move won, or no
empty cell remains. -/
def isGameOver (board : Board) (lastMove : Option (Int × Int)) : Bool :=
  searchCheckWin board lastMove || decide (emptyCount board = 0)

/-- `new_board[move[0]][move[1]] = player`: place a stone. -/
def place (board : Board) (m : Int × Int) (p : Int) : Board :=
  setCell board m.1 m.2 p

/-- All board coordinates (`board_size = board.shape[0]` for both), in
row-major order. -/
def gridList (board : Board) : List (Int × Int) :=
  (List.range (shape0 board)).flatMap fun i =>
    (List.range (shape0 board)).map fun (j : Nat) => ((i : Int), (j : Int))

/-- The Python `list(candidates)` of `_get_candidate_moves` has an
implementation-defined iteration order; the embedding fixes the
row-major order of the same set. -/
def candList (board : Board) : List (Int × Int) :=
  (gridList board).filter (fun q => decide (q ∈ getCandidateMoves board))

/-- `Search._minimax(board, depth, is_maximizing, last_move)`: full
minimax over the first 10 candidate moves per ply, terminal on depth 0,
win by the last move, or a full board. -/
def minimax (player : Int) : Nat → Board → Bool → Option (Int × Int) → V
  | 0, board, _, _ => evalBoardV player board
  | (d + 1), board, isMax, lastMove =>
    if isGameOver board lastMove then evalBoardV player board
    else
      let cands := (candList board).take 10
      if isMax then
        (cands.map fun m =>
          minimax player d (place board m player) false (some m)).foldl max ⊥
      else
        (cands.map fun m =>
          minimax player d (place board m (3 - player)) true (some m)).foldl min ⊤

/-- The score stage 3 assigns to a candidate: place it for the engine's
player, then run `_minimax(new_board, minimax_depth - 1, False, move)`. -/
def l3score (player : Int) (mmDepth : Nat) (board : Board) (m : Int × Int) : V :=
  minimax player (mmDepth - 1) (place board m player) false (some m)

/-- The `best_move`/`best_score` selection loop of
`_layer3_minimax_decision` (`best_score` starts at `float("-inf")`, an
update needs a strict improvement). -/
def layer3Fold (score : (Int × Int) → V) :
    List (Int × Int) → (Int × Int) → V → (Int × Int)
  | [], best, _ => best
  | m :: rest, best, bestScore =>
    if bestScore < score m then layer3Fold score rest m (score m)
    else layer3Fold score rest best bestScore

/-- `Search._layer3_minimax_decision(board, candidates)`: the single
candidate if only one remains, else the selection loop over all
candidates; `none` models the `IndexError` on an empty candidate list. -/
def layer3 (player : Int) (mmDepth : Nat) (board : Board)
    (candidates : List (Int × Int)) : Option (Int × Int) :=
  match candidates with
  | [] => none
  | c0 :: rest =>
    if (c0 :: rest).length = 1 then some c0
    else some (layer3Fold (l3score player mmDepth board) (c0 :: rest) c0 ⊥)

theorem layer3Fold_spec (score : (Int × Int) → V) :
    ∀ (l : List (Int × Int)) (b : Int × Int) (v : V),
      ((∀ m ∈ l, score m ≤ v) ∧ layer3Fold score l b v = b)
      ∨ (∃ i : Nat, ∃ hi : i < l.length,
          layer3Fold score l b v = l.get ⟨i, hi⟩ ∧
          v < score (l.get ⟨i, hi⟩) ∧
          (∀ m ∈ l, score m ≤ score (l.get ⟨i, hi⟩)) ∧
          (∀ (j : Nat) (hj : j < l.length), j < i →
            score (l.get ⟨j, hj⟩) < score (l.get ⟨i, hi⟩))) := by
  intro l
  induction l with
  | nil => intro b v; left; exact ⟨by simp, rfl⟩
  | cons m rest ih =>
    intro b v
    by_cases hm : v < score m
    · right
      rcases ih m (score m) with ⟨hall, heq⟩ | ⟨i, hi, heq, hv, hmax, hstrict⟩
      · refine ⟨0, by simp, ?_, hm, ?_, ?_⟩
        · show layer3Fold score (m :: rest) b v = m
          rw [layer3Fold, if_pos hm, heq]
        · intro x hx
          rcases List.mem_cons.mp hx with h | h
          · subst h; exact le_refl _
          · exact hall x h
        · intro j hj hj0; omega
      · refine ⟨i + 1, by simpa using Nat.succ_lt_succ hi, ?_, ?_, ?_, ?_⟩
        · show layer3Fold score (m :: rest) b v = rest.get ⟨i, hi⟩
          rw [layer3Fold, if_pos hm, heq]
        · exact lt_trans hm hv
        · intro x hx
          rcases List.mem_cons.mp hx with h | h
          · subst h; exact le_of_lt hv
          · exact hmax x h
        · intro j hj hji
          match j with
          | 0 => exact hv
          | (k + 1) => exact hstrict k (by simpa using hj) (by omega)
    · rcases ih b v with ⟨hall, heq⟩ | ⟨i, hi, heq, hv, hmax, hstrict⟩
      · left
        constructor
        · intro x hx
          rcases List.mem_cons.mp hx with h | h
          · subst h; exact le_of_not_lt hm
          · exact hall x h
        · show layer3Fold score (m :: rest) b v = b
          rw [layer3Fold, if_neg hm, heq]
      · right
        refine ⟨i + 1, by simpa using Nat.succ_lt_succ hi, ?_, hv, ?_, ?_⟩
        · show layer3Fold score (m :: rest) b v = rest.get ⟨i, hi⟩
          rw [layer3Fold, if_neg hm, heq]
        · intro x hx
          rcases List.mem_cons.mp hx with h | h
          · subst h; exact le_of_lt (lt_of_le_of_lt (le_of_not_lt hm) hv)
          · exact hmax x h
        · intro j hj hji
          match j with
          | 0 => exact lt_of_le_of_lt (le_of_not_lt hm) hv
          | (k + 1) => exact hstrict k (by simpa using hj) (by omega)

/-- C7: on a non-empty candidate list, stage 3 returns the single
candidate when exactly one remains, and otherwise a candidate whose
minimax score (after placing it for the engine's player) is maximal;
every earlier candidate in the list scores strictly lower (first-seen
tie-breaking). -/
theorem layer3_spec (player : Int) (mmDepth : Nat) (board : Board)
    (cs : List (Int × Int)) (h : cs ≠ []) :
    ∃ i : Nat, ∃ hi : i < cs.length,
      layer3 player mmDepth board cs = some (cs.get ⟨i, hi⟩) ∧
      (cs.length = 1 → i = 0) ∧
      (∀ m ∈ cs, l3score player mmDepth board m ≤
        l3score player mmDepth board (cs.get ⟨i, hi⟩)) ∧
      (∀ (j : Nat) (hj : j < cs.length), j < i →
        l3score player mmDepth board (cs.get ⟨j, hj⟩) <
          l3score player mmDepth board (cs.get ⟨i, hi⟩)) := by
  match cs with
  | [] => exact absurd rfl h
  | c0 :: rest =>
    by_cases hlen : (c0 :: rest).length = 1
    · refine ⟨0, by simp, ?_, fun _ => rfl, ?_, ?_⟩
      · show layer3 player mmDepth board (c0 :: rest) = some c0
        simp only [layer3]
        rw [if_pos hlen]
      · intro m hm
        have : rest = [] := by
          simp only [List.length_cons] at hlen
          exact List.length_eq_zero.mp (by omega)
        subst this
        rcases List.mem_singleton.mp hm with h
        subst h
        exact le_refl _
      · intro j hj hj0; omega
    · rcases layer3Fold_spec (l3score player mmDepth board) (c0 :: rest) c0 ⊥ with
        ⟨hall, heq⟩ | ⟨i, hi, heq, _, hmax, hstrict⟩
      · refine ⟨0, by simp, ?_, fun _ => rfl, ?_, ?_⟩
        · show layer3 player mmDepth board (c0 :: rest) = some c0
          simp only [layer3]
          rw [if_neg hlen, heq]
        · intro m hm
          have hbot : l3score player mmDepth board c0 = ⊥ :=
            le_bot_iff.mp (hall c0 (List.mem_cons_self c0 rest))
          have := hall m hm
          show l3score player mmDepth board m ≤
            l3score player mmDepth board ((c0 :: rest).get ⟨0, by simp⟩)
          show l3score player mmDepth board m ≤ l3score player mmDepth board c0
          rw [hbot]
          exact this
        · intro j hj hj0; omega
      · refine ⟨i, hi, ?_, fun he => absurd he hlen, hmax, hstrict⟩
        simp only [layer3]
        rw [if_neg hlen, heq]

theorem layer3_spec_witness :
    layer3 1 4 [[0]] [((0 : Int), (0 : Int))] = some ((0 : Int), (0 : Int)) := by
  obtain ⟨i, hi, heq, hlen, _, _⟩ :=
    layer3_spec 1 4 [[0]] [((0 : Int), (0 : Int))] (by decide)
  have h0 : i = 0 := hlen rfl
  subst h0
  simpa using heq

/-! ### The match driver (`match.py`, claims C8 and C9) -/

/-- One per-game record of `MatchEngine._run_single_game` /
`run_match`.  The Python dict carries `game`, `winner`, `duration`,
`challenger_first` and, only when added by `run_match`'s own exception
handler, `error`; wall-clock `duration` is not modelled. -/
structure GameRecord where
  game : Nat
  winner : Nat
  challengerFirst : Bool
  error : Option String
deriving DecidableEq

/-- The winner relabelling applied when the defender moved first
(`if winner == 1: winner = 2 elif winner == 2: winner = 1`). -/
def swapWinner (w : Nat) : Nat :=
  if w = 1 then 2 else if w = 2 then 1 else w

/-- `MatchEngine._run_single_game(agent1_path, agent2_path, game_num)`.

The `try` block loads both agents afresh and plays one game in the
parity-chosen seating; it is abstracted as `playResult`: `.ok w` is the
raw winner label `play_game` returned in that seating, `.error e` means
some step of the block (agent loading included) raised.  The `except`
branch of the source sets `winner = 2` and attaches no error to the
returned record. -/
def runSingleGame (playResult : Except String Nat) (gameNum : Nat) : GameRecord :=
  match playResult with
  | Except.ok w =>
    { game := gameNum + 1
      winner := if gameNum % 2 = 0 then w else swapWinner w
      challengerFirst := gameNum % 2 = 0
      error := none }
  | Except.error _ =>
    { game := gameNum + 1
      winner := 2
      challengerFirst := gameNum % 2 = 0
      error := none }

/-- The aggregate state `run_match` builds: win/draw tallies plus the
per-game records, sorted by game number at the end.  Worker-pool
completion order is irrelevant to the final value because the source
re-sorts by `game` and the tallies commute, so the embedding folds the
games in index order. -/
structure MatchResults where
  challengerWins : Nat
  defenderWins : Nat
  draws : Nat
  games : List GameRecord
deriving DecidableEq

/-- The tally branch of `run_match`'s collection loop: 0 is a draw, 1 a
challenger win, anything else a defender win. -/
def tallyGame (acc : MatchResults) (rec : GameRecord) : MatchResults :=
  if rec.winner = 0 then
    { acc with draws := acc.draws + 1, games := acc.games ++ [rec] }
  else if rec.winner = 1 then
    { acc with challengerWins := acc.challengerWins + 1, games := acc.games ++ [rec] }
  else
    { acc with defenderWins := acc.defenderWins + 1, games := acc.games ++ [rec] }

/-- `MatchEngine.run_match` over `games` game indices, the per-game play
outcomes abstracted as `outcomes` (see `runSingleGame`).
`_run_single_game` itself never raises — its whole body is wrapped in
`try/except` — so `run_match`'s own per-future `except` branch (the only
place an `error` string is attached) is dead code and every record comes
from `runSingleGame`. -/
def runMatch (games : Nat) (outcomes : Nat → Except String Nat) : MatchResults :=
  ((List.range games).map (fun g => runSingleGame (outcomes g) g)).foldl
    tallyGame ⟨0, 0, 0, []⟩

theorem runMatch_games_foldl (games : Nat) (outcomes : Nat → Except String Nat) :
    ∀ acc : MatchResults,
      (((List.range games).map (fun g => runSingleGame (outcomes g) g)).foldl
        tallyGame acc).games =
      acc.games ++ (List.range games).map (fun g => runSingleGame (outcomes g) g) := by
  induction (List.range games).map (fun g => runSingleGame (outcomes g) g) with
  | nil => intro acc; simp
  | cons r rs ih =>
    intro acc
    rw [List.foldl_cons, ih (tallyGame acc r)]
    have : (tallyGame acc r).games = acc.games ++ [r] := by
      unfold tallyGame
      by_cases h0 : r.winner = 0
      · rw [if_pos h0]
      · rw [if_neg h0]
        by_cases h1 : r.winner = 1
        · rw [if_pos h1]
        · rw [if_neg h1]
    rw [this]
    simp

theorem runMatch_tally_sum (games : Nat) (outcomes : Nat → Except String Nat) :
    ∀ acc : MatchResults,
      (((List.range games).map (fun g => runSingleGame (outcomes g) g)).foldl
          tallyGame acc).challengerWins +
        (((List.range games).map (fun g => runSingleGame (outcomes g) g)).foldl
          tallyGame acc).defenderWins +
        (((List.range games).map (fun g => runSingleGame (outcomes g) g)).foldl
          tallyGame acc).draws =
      acc.challengerWins + acc.defenderWins + acc.draws +
        ((List.range games).map (fun g => runSingleGame (outcomes g) g)).length := by
  induction (List.range games).map (fun g => runSingleGame (outcomes g) g) with
  | nil => intro acc; simp
  | cons r rs ih =>
    intro acc
    rw [List.foldl_cons, ih (tallyGame acc r)]
    have : (tallyGame acc r).challengerWins + (tallyGame acc r).defenderWins +
        (tallyGame acc r).draws =
        acc.challengerWins + acc.defenderWins + acc.draws + 1 := by
      unfold tallyGame
      by_cases h0 : r.winner = 0
      · rw [if_pos h0]; dsimp only; omega
      · rw [if_neg h0]
        by_cases h1 : r.winner = 1
        · rw [if_pos h1]; dsimp only; omega
        · rw [if_neg h1]; dsimp only; omega
    rw [this]
    simp
    omega

/-- C8 counterexample: a game whose execution raised (here: an agent
source that failed to load) is recorded as a defender win but with **no**
attached error string — the claim's "with an attached error string in its
per-game record" fails. -/
theorem runSingleGame_fault_no_error_string :
    (runSingleGame (Except.error "agent source failed to load") 0).winner = 2 ∧
      (runSingleGame (Except.error "agent source failed to load") 0).error =
        none := by
  constructor <;> rfl

/-- C8 (amended): a faulted game is recorded as a defender win (winner
label 2, no error string attached — the per-game runner swallows the
exception), and all games of the match are still run and aggregated: the
match report always holds one record per game index, in order, with the
three tallies summing to the number of games. -/
theorem runMatch_fault_spec (games : Nat) (outcomes : Nat → Except String Nat) :
    ((runMatch games outcomes).games.length = games) ∧
    ((runMatch games outcomes).challengerWins +
      (runMatch games outcomes).defenderWins +
      (runMatch games outcomes).draws = games) ∧
    (∀ g : Nat, g < games →
      (runMatch games outcomes).games[g]? =
        some (runSingleGame (outcomes g) g)) ∧
    (∀ g : Nat, (∀ e, outcomes g ≠ Except.ok e) →
      (runSingleGame (outcomes g) g).winner = 2 ∧
      (runSingleGame (outcomes g) g).error = none) := by
  have hgames : (runMatch games outcomes).games =
      (List.range games).map (fun g => runSingleGame (outcomes g) g) := by
    unfold runMatch
    rw [runMatch_games_foldl games outcomes ⟨0, 0, 0, []⟩]
    simp
  refine ⟨by rw [hgames]; simp, ?_, ?_, ?_⟩
  · unfold runMatch
    rw [runMatch_tally_sum games outcomes ⟨0, 0, 0, []⟩]
    simp
  · intro g hg
    rw [hgames, List.getElem?_map, List.getElem?_range hg]
    rfl
  · intro g hfault
    match ho : outcomes g with
    | Except.ok w => exact absurd ho (by simpa using hfault w)
    | Except.error e =>
      constructor <;> rfl

theorem runMatch_fault_spec_witness :
    ((runMatch 2 (fun g => if g = 0 then Except.error "load failed"
        else Except.ok 1)).games.length = 2) ∧
      (runSingleGame ((fun g => if g = 0 then Except.error "load failed"
        else Except.ok 1) 0) 0).winner = 2 := by
  have h := runMatch_fault_spec 2
    (fun g => if g = 0 then Except.error "load failed" else Except.ok 1)
  exact ⟨h.1, (h.2.2.2 0 (by intro e; simp)).1⟩

/-- C9: the challenger takes the first-mover seat exactly on even game
indices; on odd indices the raw winner label is remapped by swapping 1
and 2 with a draw (0) preserved; over an even number of games each side
is first mover in exactly half of them. -/
theorem runSingleGame_parity (g w : Nat) :
    ((runSingleGame (Except.ok w) g).challengerFirst ↔ g % 2 = 0) ∧
    (g % 2 = 0 → (runSingleGame (Except.ok w) g).winner = w) ∧
    (g % 2 ≠ 0 → (runSingleGame (Except.ok w) g).winner = swapWinner w) ∧
    (swapWinner 1 = 2 ∧ swapWinner 2 = 1 ∧ swapWinner 0 = 0) ∧
    (∀ games : Nat, games % 2 = 0 →
      ((List.range games).filter (fun k => decide (k % 2 = 0))).length =
        games / 2) := by
  refine ⟨?_, ?_, ?_, ⟨rfl, rfl, rfl⟩, ?_⟩
  · unfold runSingleGame
    by_cases h : g % 2 = 0
    · simp [h]
    · simp [h]
  · intro h
    unfold runSingleGame
    simp [h]
  · intro h
    unfold runSingleGame
    simp [h]
  · have key : ∀ m : Nat,
        ((List.range m).filter (fun k => decide (k % 2 = 0))).length =
          (m + 1) / 2 := by
      intro m
      induction m with
      | zero => rfl
      | succ m ih =>
        rw [List.range_succ, List.filter_append, List.length_append, ih]
        by_cases h : m % 2 = 0
        · simp [h]
          omega
        · simp [h]
          omega
    intro games hgames
    rw [key games]
    omega

theorem runSingleGame_parity_witness :
    ((runSingleGame (Except.ok 1) 3).challengerFirst ↔ 3 % 2 = 0) ∧
      (runSingleGame (Except.ok 1) 3).winner = swapWinner 1 := by
  have h := runSingleGame_parity 3 1
  exact ⟨h.1, h.2.2.1 (by decide)⟩

/-! ### `Search.make_move`: the full cascade (claim C10) -/

/-- The `empty_cells` list comprehension of `_opening_move`, row-major. -/
def emptyCellsList (board : Board) : List (Int × Int) :=
  ((List.range (shape0 board)).flatMap fun i =>
    (List.range (shape1 board)).map fun (j : Nat) => ((i : Int), (j : Int))).filter
    (fun q => decide (cell board q.1 q.2 = 0))

/-- The 8-neighbour priority order of `_opening_move`. -/
def openingOffsets : List (Int × Int) :=
  [(0, 1), (1, 0), (0, -1), (-1, 0), (1, 1), (1, -1), (-1, 1), (-1, -1)]

/-- `Search._is_opening(board)`: at most 2 stones. -/
def isOpening (board : Board) : Bool := decide (stoneCount board ≤ 2)

/-- `Search._opening_move(board)`; `choice` abstracts `random.choice` —
the safety theorem only assumes it returns a member of its argument. -/
def openingMove (choice : List (Int × Int) → Int × Int) (board : Board) :
    Option (Int × Int) :=
  let center : Int := ((shape0 board / 2 : Nat) : Int)
  if stoneCount board = 0 then some (center, center)
  else
    match openingOffsets.findSome? (fun o =>
      if 0 ≤ center + o.1 ∧ center + o.1 < (shape0 board : Int) ∧
          0 ≤ center + o.2 ∧ center + o.2 < (shape1 board : Int) ∧
          cell board (center + o.1) (center + o.2) = 0 then
        some (center + o.1, center + o.2)
      else none) with
    | some m => some m
    | none =>
      if emptyCellsList board = [] then none
      else some (choice (emptyCellsList board))

/-- `Search._layer1_mcts_coarse_filter`; `qeval` abstracts the
stochastic, wall-clock-bounded `_quick_mcts_evaluate`. -/
def layer1 (qeval : Board → (Int × Int) → Int) (board : Board) :
    List (Int × Int) :=
  let cands := candList board
  if cands.length ≤ 10 then cands
  else
    let scored := cands.map fun m => (m, qeval board m)
    let sorted := scored.mergeSort (fun a b => decide (b.2 ≤ a.2))
    (sorted.take 15).map Prod.fst

/-- The pruned maximising loop of `_alpha_beta` (`break` once
`beta <= alpha` after raising `alpha`). -/
def abMaxLoop (recur : Board → V → V → Option (Int × Int) → V) (player : Int)
    (board : Board) : List (Int × Int) → V → V → V → V
  | [], _, _, best => best
  | m :: rest, alpha, beta, best =>
    let s := recur (place board m player) alpha beta (some m)
    if beta ≤ max alpha s then max best s
    else abMaxLoop recur player board rest (max alpha s) beta (max best s)

/-- The pruned minimising loop of `_alpha_beta` (`break` once
`beta <= alpha` after lowering `beta`). -/
def abMinLoop (recur : Board → V → V → Option (Int × Int) → V) (player : Int)
    (board : Board) : List (Int × Int) → V → V → V → V
  | [], _, _, best => best
  | m :: rest, alpha, beta, best =>
    let s := recur (place board m (3 - player)) alpha beta (some m)
    if min beta s ≤ alpha then min best s
    else abMinLoop recur player board rest alpha (min beta s) (min best s)

/-- `Search._alpha_beta(board, depth, alpha, beta, is_maximizing,
last_move)`: pruned minimax over the first 8 candidates per ply. -/
def alphaBeta (player : Int) :
    Nat → Board → V → V → Bool → Option (Int × Int) → V
  | 0, board, _, _, _, _ => evalBoardV player board
  | (d + 1), board, alpha, beta, isMax, lastMove =>
    if isGameOver board lastMove then evalBoardV player board
    else
      let cands := (candList board).take 8
      if isMax then
        abMaxLoop (fun b a bt lm => alphaBeta player d b a bt false lm)
          player board cands alpha beta ⊥
      else
        abMinLoop (fun b a bt lm => alphaBeta player d b a bt true lm)
          player board cands alpha beta ⊤

/-- `Search._layer2_alpha_beta_fine_filter(board, candidates)`: pass
through when at most 5 candidates, else keep the 5 best by the pruned
search. -/
def layer2 (player : Int) (abDepth : Nat) (board : Board)
    (candidates : List (Int × Int)) : List (Int × Int) :=
  if candidates.length ≤ 5 then candidates
  else
    let scored := candidates.map fun m =>
      (m, alphaBeta player (abDepth - 1) (place board m player) ⊥ ⊤ false (some m))
    let sorted := scored.mergeSort (fun a b => decide (b.2 ≤ a.2))
    (sorted.take 5).map Prod.fst

/-- `Search.make_move(board)`: the opening shortcut or the three-stage
cascade. -/
def searchMakeMove (player : Int) (abDepth mmDepth : Nat)
    (choice : List (Int × Int) → Int × Int)
    (qeval : Board → (Int × Int) → Int) (board : Board) :
    Option (Int × Int) :=
  if isOpening board then openingMove choice board
  else
    layer3 player mmDepth board
      (layer2 player abDepth board (layer1 qeval board))

/-! #### Membership plumbing for the cascade -/

theorem mem_gridList (board : Board) (q : Int × Int) :
    q ∈ gridList board ↔
      0 ≤ q.1 ∧ q.1 < (shape0 board : Int) ∧ 0 ≤ q.2 ∧
        q.2 < (shape0 board : Int) := by
  unfold gridList
  constructor
  · intro hq
    obtain ⟨i, hi, hq2⟩ := List.mem_flatMap.mp hq
    obtain ⟨j, hj, heq⟩ := List.mem_map.mp hq2
    rw [List.mem_range] at hi hj
    have h1 : q.1 = (i : Int) := by rw [← heq]
    have h2 : q.2 = (j : Int) := by rw [← heq]
    refine ⟨by omega, ?_, by omega, ?_⟩
    · rw [h1]; exact_mod_cast hi
    · rw [h2]; exact_mod_cast hj
  · rintro ⟨h1, h2, h3, h4⟩
    refine List.mem_flatMap.mpr ⟨q.1.toNat, List.mem_range.mpr (by omega), ?_⟩
    refine List.mem_map.mpr ⟨q.2.toNat, List.mem_range.mpr (by omega), ?_⟩
    show (((q.1.toNat : Nat) : Int), ((q.2.toNat : Nat) : Int)) = q
    have e1 : ((q.1.toNat : Nat) : Int) = q.1 := Int.toNat_of_nonneg h1
    have e2 : ((q.2.toNat : Nat) : Int) = q.2 := Int.toNat_of_nonneg h3
    rw [e1, e2]

theorem mem_candList (board : Board) (q : Int × Int) :
    q ∈ candList board ↔ q ∈ gridList board ∧ q ∈ getCandidateMoves board := by
  unfold candList
  rw [List.mem_filter]
  simp

theorem mem_emptyCellsList (board : Board) (q : Int × Int) :
    q ∈ emptyCellsList board ↔
      (0 ≤ q.1 ∧ q.1 < (shape0 board : Int) ∧ 0 ≤ q.2 ∧
        q.2 < (shape1 board : Int)) ∧ cell board q.1 q.2 = 0 := by
  unfold emptyCellsList
  rw [List.mem_filter]
  constructor
  · rintro ⟨hmem, hc⟩
    obtain ⟨i, hi, hq2⟩ := List.mem_flatMap.mp hmem
    obtain ⟨j, hj, heq⟩ := List.mem_map.mp hq2
    rw [List.mem_range] at hi hj
    have h1 : q.1 = (i : Int) := by rw [← heq]
    have h2 : q.2 = (j : Int) := by rw [← heq]
    refine ⟨⟨by omega, ?_, by omega, ?_⟩, of_decide_eq_true hc⟩
    · rw [h1]; exact_mod_cast hi
    · rw [h2]; exact_mod_cast hj
  · rintro ⟨⟨h1, h2, h3, h4⟩, hc⟩
    refine ⟨?_, decide_eq_true hc⟩
    refine List.mem_flatMap.mpr ⟨q.1.toNat, List.mem_range.mpr (by omega), ?_⟩
    refine List.mem_map.mpr ⟨q.2.toNat, List.mem_range.mpr (by omega), ?_⟩
    show (((q.1.toNat : Nat) : Int), ((q.2.toNat : Nat) : Int)) = q
    have e1 : ((q.1.toNat : Nat) : Int) = q.1 := Int.toNat_of_nonneg h1
    have e2 : ((q.2.toNat : Nat) : Int) = q.2 := Int.toNat_of_nonneg h3
    rw [e1, e2]

/-- On a well-formed nonempty square board, `board.shape[1] = n`. -/
theorem shape1_eq {n : Nat} {board : Board} (hwf : WF n board) (hn : 0 < n) :
    shape1 board = n := by
  unfold shape1
  cases board with
  | nil =>
    have h0 := hwf.1
    simp only [List.length_nil] at h0
    simp only [List.headD_nil, List.length_nil]
    omega
  | cons row rest =>
    simp only [List.headD_cons]
    exact hwf.2 row (List.mem_cons_self row rest)

theorem stoneCount_ne_zero_exists (board : Board)
    (h : stoneCount board ≠ 0) :
    ∃ s : Int × Int, 0 ≤ s.1 ∧ s.1 < (shape0 board : Int) ∧ 0 ≤ s.2 ∧
      s.2 < (shape1 board : Int) ∧ cell board s.1 s.2 ≠ 0 := by
  by_contra hall
  push_neg at hall
  apply h
  unfold stoneCount
  refine Finset.sum_eq_zero fun i hi => Finset.sum_eq_zero fun j hj => ?_
  rw [if_neg]
  intro hc
  have hi' := Finset.mem_range.mp hi
  have hj' := Finset.mem_range.mp hj
  refine hc (hall ((i : Int), (j : Int)) (Int.natCast_nonneg i) ?_
    (Int.natCast_nonneg j) ?_)
  · show (i : Int) < (shape0 board : Int)
    exact_mod_cast hi'
  · show (j : Int) < (shape1 board : Int)
    exact_mod_cast hj'

theorem stoneCount_zero_cell (board : Board) (h : stoneCount board = 0)
    (x y : Int) (hx : 0 ≤ x ∧ x < (shape0 board : Int))
    (hy : 0 ≤ y ∧ y < (shape1 board : Int)) : cell board x y = 0 := by
  by_contra hc
  have hmem : x.toNat ∈ Finset.range (shape0 board) := Finset.mem_range.mpr (by omega)
  have hmem2 : y.toNat ∈ Finset.range (shape1 board) := Finset.mem_range.mpr (by omega)
  have hterm : (∑ j ∈ Finset.range (shape1 board),
      if cell board (x.toNat : Int) (j : Int) ≠ 0 then 1 else 0) = 0 := by
    have := (Finset.sum_eq_zero_iff.mp h) x.toNat hmem
    exact this
  have := (Finset.sum_eq_zero_iff.mp hterm) y.toNat hmem2
  rw [if_pos] at this
  · exact absurd this (by omega)
  · rw [Int.toNat_of_nonneg hx.1, Int.toNat_of_nonneg hy.1]
    exact hc

/-- Any board holding both a stone and an empty cell holds an empty cell
next to a stone (walk a grid path from the stone to the empty cell and
look at the first occupied→empty transition). -/
theorem exists_adjacent_occ_empty (board : Board) (n : Nat) :
    ∀ (k : Nat) (s e : Int × Int),
      (e.1 - s.1).natAbs + (e.2 - s.2).natAbs = k →
      (0 ≤ s.1 ∧ s.1 < (n : Int) ∧ 0 ≤ s.2 ∧ s.2 < (n : Int)) →
      cell board s.1 s.2 ≠ 0 →
      (0 ≤ e.1 ∧ e.1 < (n : Int) ∧ 0 ≤ e.2 ∧ e.2 < (n : Int)) →
      cell board e.1 e.2 = 0 →
      ∃ p q : Int × Int,
        (0 ≤ p.1 ∧ p.1 < (n : Int) ∧ 0 ≤ p.2 ∧ p.2 < (n : Int)) ∧
        (0 ≤ q.1 ∧ q.1 < (n : Int) ∧ 0 ≤ q.2 ∧ q.2 < (n : Int)) ∧
        cell board p.1 p.2 ≠ 0 ∧ cell board q.1 q.2 = 0 ∧
        |q.1 - p.1| ≤ 1 ∧ |q.2 - p.2| ≤ 1 := by
  intro k
  induction k using Nat.strong_induction_on with
  | _ k ih =>
    intro s e hk hsb hso heb hee
    rcases lt_trichotomy s.1 e.1 with h1 | h1 | h1
    · have hs' : 0 ≤ s.1 + 1 ∧ s.1 + 1 < (n : Int) ∧ 0 ≤ s.2 ∧ s.2 < (n : Int) := by
        obtain ⟨a, b, c, d⟩ := hsb; obtain ⟨a2, b2, c2, d2⟩ := heb
        refine ⟨by omega, by omega, c, d⟩
      by_cases hc : cell board (s.1 + 1) s.2 = 0
      · refine ⟨s, (s.1 + 1, s.2), hsb, hs', hso, hc, ?_, ?_⟩
        · show |s.1 + 1 - s.1| ≤ 1
          rw [abs_le]; omega
        · show |s.2 - s.2| ≤ 1
          rw [abs_le]; omega
      · exact ih ((e.1 - (s.1 + 1)).natAbs + (e.2 - s.2).natAbs) (by omega)
          (s.1 + 1, s.2) e rfl hs' hc heb hee
    · rcases lt_trichotomy s.2 e.2 with h2 | h2 | h2
      · have hs' : 0 ≤ s.1 ∧ s.1 < (n : Int) ∧ 0 ≤ s.2 + 1 ∧ s.2 + 1 < (n : Int) := by
          obtain ⟨a, b, c, d⟩ := hsb; obtain ⟨a2, b2, c2, d2⟩ := heb
          refine ⟨a, b, by omega, by omega⟩
        by_cases hc : cell board s.1 (s.2 + 1) = 0
        · refine ⟨s, (s.1, s.2 + 1), hsb, hs', hso, hc, ?_, ?_⟩
          · show |s.1 - s.1| ≤ 1
            rw [abs_le]; omega
          · show |s.2 + 1 - s.2| ≤ 1
            rw [abs_le]; omega
        · exact ih ((e.1 - s.1).natAbs + (e.2 - (s.2 + 1)).natAbs) (by omega)
            (s.1, s.2 + 1) e rfl hs' hc heb hee
      · have hse : s = e := Prod.ext h1 h2
        rw [hse] at hso
        exact absurd hee hso
      · have hs' : 0 ≤ s.1 ∧ s.1 < (n : Int) ∧ 0 ≤ s.2 - 1 ∧ s.2 - 1 < (n : Int) := by
          obtain ⟨a, b, c, d⟩ := hsb; obtain ⟨a2, b2, c2, d2⟩ := heb
          refine ⟨a, b, by omega, by omega⟩
        by_cases hc : cell board s.1 (s.2 - 1) = 0
        · refine ⟨s, (s.1, s.2 - 1), hsb, hs', hso, hc, ?_, ?_⟩
          · show |s.1 - s.1| ≤ 1
            rw [abs_le]; omega
          · show |s.2 - 1 - s.2| ≤ 1
            rw [abs_le]; omega
        · exact ih ((e.1 - s.1).natAbs + (e.2 - (s.2 - 1)).natAbs) (by omega)
            (s.1, s.2 - 1) e rfl hs' hc heb hee
    · have hs' : 0 ≤ s.1 - 1 ∧ s.1 - 1 < (n : Int) ∧ 0 ≤ s.2 ∧ s.2 < (n : Int) := by
        obtain ⟨a, b, c, d⟩ := hsb; obtain ⟨a2, b2, c2, d2⟩ := heb
        refine ⟨by omega, by omega, c, d⟩
      by_cases hc : cell board (s.1 - 1) s.2 = 0
      · refine ⟨s, (s.1 - 1, s.2), hsb, hs', hso, hc, ?_, ?_⟩
        · show |s.1 - 1 - s.1| ≤ 1
          rw [abs_le]; omega
        · show |s.2 - s.2| ≤ 1
          rw [abs_le]; omega
      · exact ih ((e.1 - (s.1 - 1)).natAbs + (e.2 - s.2).natAbs) (by omega)
          (s.1 - 1, s.2) e rfl hs' hc heb hee

/-- On a non-opening board (some stone, some empty cell), the candidate
list the cascade consults is non-empty. -/
theorem candList_ne_nil (n : Nat) (board : Board) (hwf : WF n board)
    (hn : 0 < n) (hstones : stoneCount board ≠ 0)
    (hempty : ∃ e : Int × Int, 0 ≤ e.1 ∧ e.1 < (n : Int) ∧ 0 ≤ e.2 ∧
      e.2 < (n : Int) ∧ cell board e.1 e.2 = 0) :
    candList board ≠ [] := by
  have hsh0 : shape0 board = n := hwf.1
  have hsh1 : shape1 board = n := shape1_eq hwf hn
  obtain ⟨s, hs1, hs2, hs3, hs4, hs5⟩ := stoneCount_ne_zero_exists board hstones
  rw [hsh0] at hs2
  rw [hsh1] at hs4
  obtain ⟨e, he1, he2, he3, he4, he5⟩ := hempty
  obtain ⟨p, q, hpb, hqb, hpo, hqe, hd1, hd2⟩ :=
    exists_adjacent_occ_empty board n
      ((e.1 - s.1).natAbs + (e.2 - s.2).natAbs) s e rfl
      ⟨hs1, hs2, hs3, hs4⟩ hs5 ⟨he1, he2, he3, he4⟩ he5
  have hq : q ∈ getCandidateMoves board := by
    rw [mem_getCandidateMoves board hstones q]
    rw [abs_le] at hd1 hd2
    refine ⟨?_, p, ?_, ?_, ?_, ?_, hpo, ?_, ?_⟩
    · unfold candOK
      rw [hsh0]
      exact ⟨hqb.1, hqb.2.1, hqb.2.2.1, hqb.2.2.2, hqe⟩
    · exact hpb.1
    · rw [hsh0]; exact hpb.2.1
    · exact hpb.2.2.1
    · rw [hsh0]; exact hpb.2.2.2
    · rw [abs_le]; omega
    · rw [abs_le]; omega
  have hqg : q ∈ gridList board := by
    rw [mem_gridList board q, hsh0]
    exact ⟨hqb.1, hqb.2.1, hqb.2.2.1, hqb.2.2.2⟩
  exact List.ne_nil_of_mem ((mem_candList board q).mpr ⟨hqg, hq⟩)

/-- Stage 1 keeps a non-empty subset of the candidate list. -/
theorem layer1_sub_ne (qeval : Board → (Int × Int) → Int) (board : Board)
    (h : candList board ≠ []) :
    layer1 qeval board ≠ [] ∧ ∀ m ∈ layer1 qeval board, m ∈ candList board := by
  unfold layer1
  by_cases hlen : (candList board).length ≤ 10
  · rw [if_pos hlen]
    exact ⟨h, fun m hm => hm⟩
  · rw [if_neg hlen]
    have hlen2 : 10 < (candList board).length := by omega
    constructor
    · intro hnil
      have hl := congrArg List.length hnil
      simp only [List.length_map, List.length_take, List.length_mergeSort,
        List.length_nil] at hl
      omega
    · intro m hm
      obtain ⟨pair, hpair, heq⟩ := List.mem_map.mp hm
      have h1 := List.mem_of_mem_take hpair
      have h2 := List.mem_mergeSort.mp h1
      obtain ⟨m0, hm0, heq0⟩ := List.mem_map.mp h2
      rw [← heq, ← heq0]
      exact hm0

/-- Stage 2 keeps a non-empty subset of its input. -/
theorem layer2_sub_ne (player : Int) (abDepth : Nat) (board : Board)
    (cs : List (Int × Int)) (h : cs ≠ []) :
    layer2 player abDepth board cs ≠ [] ∧
      ∀ m ∈ layer2 player abDepth board cs, m ∈ cs := by
  unfold layer2
  by_cases hlen : cs.length ≤ 5
  · rw [if_pos hlen]
    exact ⟨h, fun m hm => hm⟩
  · rw [if_neg hlen]
    have hlen2 : 5 < cs.length := by omega
    constructor
    · intro hnil
      have hl := congrArg List.length hnil
      simp only [List.length_map, List.length_take, List.length_mergeSort,
        List.length_nil] at hl
      omega
    · intro m hm
      obtain ⟨pair, hpair, heq⟩ := List.mem_map.mp hm
      have h1 := List.mem_of_mem_take hpair
      have h2 := List.mem_mergeSort.mp h1
      obtain ⟨m0, hm0, heq0⟩ := List.mem_map.mp h2
      rw [← heq, ← heq0]
      exact hm0

theorem layer3Fold_mem (score : (Int × Int) → V) :
    ∀ (l : List (Int × Int)) (b : Int × Int) (v : V),
      layer3Fold score l b v = b ∨ layer3Fold score l b v ∈ l := by
  intro l
  induction l with
  | nil => intro b v; left; rfl
  | cons m rest ih =>
    intro b v
    rw [layer3Fold]
    by_cases hm : v < score m
    · rw [if_pos hm]
      rcases ih m (score m) with h | h
      · right; rw [h]; exact List.mem_cons_self m rest
      · right; exact List.mem_cons_of_mem m h
    · rw [if_neg hm]
      rcases ih b v with h | h
      · left; exact h
      · right; exact List.mem_cons_of_mem m h

/-- Stage 3 returns some member of a non-empty candidate list. -/
theorem layer3_mem (player : Int) (mmDepth : Nat) (board : Board)
    (cs : List (Int × Int)) (h : cs ≠ []) :
    ∃ r, layer3 player mmDepth board cs = some r ∧ r ∈ cs := by
  match cs with
  | [] => exact absurd rfl h
  | c0 :: rest =>
    simp only [layer3]
    by_cases hlen : (c0 :: rest).length = 1
    · rw [if_pos hlen]
      exact ⟨c0, rfl, List.mem_cons_self c0 rest⟩
    · rw [if_neg hlen]
      rcases layer3Fold_mem (l3score player mmDepth board) (c0 :: rest) c0 ⊥ with
        h1 | h1
      · exact ⟨_, rfl, by rw [h1]; exact List.mem_cons_self c0 rest⟩
      · exact ⟨_, rfl, h1⟩

/-- The opening shortcut returns a legal move whenever an empty cell
exists and `choice` picks members. -/
theorem openingMove_safe (n : Nat) (board : Board)
    (choice : List (Int × Int) → Int × Int) (hwf : WF n board) (hn : 5 ≤ n)
    (hchoice : ∀ l : List (Int × Int), l ≠ [] → choice l ∈ l)
    (hempty : ∃ e : Int × Int, 0 ≤ e.1 ∧ e.1 < (n : Int) ∧ 0 ≤ e.2 ∧
      e.2 < (n : Int) ∧ cell board e.1 e.2 = 0) :
    ∃ r : Int × Int, openingMove choice board = some r ∧
      0 ≤ r.1 ∧ r.1 < (n : Int) ∧ 0 ≤ r.2 ∧ r.2 < (n : Int) ∧
      cell board r.1 r.2 = 0 := by
  have hsh0 : shape0 board = n := hwf.1
  have hsh1 : shape1 board = n := shape1_eq hwf (by omega)
  simp only [openingMove]
  by_cases h0 : stoneCount board = 0
  · rw [if_pos h0]
    have hc2 : ((shape0 board / 2 : Nat) : Int) < (n : Int) := by
      rw [hsh0]
      exact_mod_cast Nat.div_lt_self (by omega) (by omega)
    have hc0 : ((shape0 board / 2 : Nat) : Int) < ((shape0 board : Nat) : Int) := by
      rw [hsh0]
      exact_mod_cast Nat.div_lt_self (by omega) (by omega)
    have hc1 : ((shape0 board / 2 : Nat) : Int) < ((shape1 board : Nat) : Int) := by
      rw [hsh1]; exact hc2
    refine ⟨(((shape0 board / 2 : Nat) : Int), ((shape0 board / 2 : Nat) : Int)),
      rfl, ?_, ?_, ?_, ?_, ?_⟩
    · show (0 : Int) ≤ ((shape0 board / 2 : Nat) : Int)
      exact Int.natCast_nonneg _
    · show ((shape0 board / 2 : Nat) : Int) < (n : Int)
      exact hc2
    · show (0 : Int) ≤ ((shape0 board / 2 : Nat) : Int)
      exact Int.natCast_nonneg _
    · show ((shape0 board / 2 : Nat) : Int) < (n : Int)
      exact hc2
    · exact stoneCount_zero_cell board h0 _ _ ⟨Int.natCast_nonneg _, hc0⟩
        ⟨Int.natCast_nonneg _, hc1⟩
  · rw [if_neg h0]
    cases hfind : openingOffsets.findSome? (fun o =>
      if 0 ≤ ((shape0 board / 2 : Nat) : Int) + o.1 ∧
          ((shape0 board / 2 : Nat) : Int) + o.1 < (shape0 board : Int) ∧
          0 ≤ ((shape0 board / 2 : Nat) : Int) + o.2 ∧
          ((shape0 board / 2 : Nat) : Int) + o.2 < (shape1 board : Int) ∧
          cell board (((shape0 board / 2 : Nat) : Int) + o.1)
            (((shape0 board / 2 : Nat) : Int) + o.2) = 0 then
        some (((shape0 board / 2 : Nat) : Int) + o.1,
          ((shape0 board / 2 : Nat) : Int) + o.2)
      else none) with
    | some m =>
      obtain ⟨o, ho, hfo⟩ := List.exists_of_findSome?_eq_some hfind
      by_cases hcond : 0 ≤ ((shape0 board / 2 : Nat) : Int) + o.1 ∧
          ((shape0 board / 2 : Nat) : Int) + o.1 < (shape0 board : Int) ∧
          0 ≤ ((shape0 board / 2 : Nat) : Int) + o.2 ∧
          ((shape0 board / 2 : Nat) : Int) + o.2 < (shape1 board : Int) ∧
          cell board (((shape0 board / 2 : Nat) : Int) + o.1)
            (((shape0 board / 2 : Nat) : Int) + o.2) = 0
      · rw [if_pos hcond] at hfo
        obtain ⟨hc1, hc2, hc3, hc4, hc5⟩ := hcond
        refine ⟨m, rfl, ?_⟩
        have hm : m = (((shape0 board / 2 : Nat) : Int) + o.1,
            ((shape0 board / 2 : Nat) : Int) + o.2) := by
          exact (Option.some_inj.mp hfo).symm
        rw [hm]
        refine ⟨?_, ?_, ?_, ?_, ?_⟩
        · show (0 : Int) ≤ ((shape0 board / 2 : Nat) : Int) + o.1
          exact hc1
        · show ((shape0 board / 2 : Nat) : Int) + o.1 < (n : Int)
          omega
        · show (0 : Int) ≤ ((shape0 board / 2 : Nat) : Int) + o.2
          exact hc3
        · show ((shape0 board / 2 : Nat) : Int) + o.2 < (n : Int)
          omega
        · show cell board (((shape0 board / 2 : Nat) : Int) + o.1)
            (((shape0 board / 2 : Nat) : Int) + o.2) = 0
          exact hc5
      · rw [if_neg hcond] at hfo
        exact absurd hfo (by simp)
    | none =>
      have hne : emptyCellsList board ≠ [] := by
        obtain ⟨e, he1, he2, he3, he4, he5⟩ := hempty
        refine List.ne_nil_of_mem ((mem_emptyCellsList board e).mpr ⟨⟨he1, ?_, he3, ?_⟩, he5⟩)
        · rw [hsh0]; exact he2
        · rw [hsh1]; exact he4
      rw [if_neg hne]
      refine ⟨choice (emptyCellsList board), rfl, ?_⟩
      have hmem := hchoice _ hne
      have h := (mem_emptyCellsList board _).mp hmem
      rw [hsh0, hsh1] at h
      exact ⟨h.1.1, h.1.2.1, h.1.2.2.1, h.1.2.2.2, h.2⟩

/-- C10: on every well-formed square board of side at least 5 holding at
least one empty cell, `Search.make_move` (embedded with any
member-picking `random.choice` and any stage-1 evaluator) returns `some`
move that is in bounds and empty — never `None`, never occupied, never
out of bounds; in particular the candidate list of every non-opening
such board is non-empty, so stage 3's access to the first candidate
cannot fail. -/
theorem searchMakeMove_safe (n : Nat) (board : Board) (player : Int)
    (abDepth mmDepth : Nat) (choice : List (Int × Int) → Int × Int)
    (qeval : Board → (Int × Int) → Int)
    (hn : 5 ≤ n) (hwf : WF n board)
    (hchoice : ∀ l : List (Int × Int), l ≠ [] → choice l ∈ l)
    (hempty : ∃ e : Int × Int, 0 ≤ e.1 ∧ e.1 < (n : Int) ∧ 0 ≤ e.2 ∧
      e.2 < (n : Int) ∧ cell board e.1 e.2 = 0) :
    ∃ r : Int × Int,
      searchMakeMove player abDepth mmDepth choice qeval board = some r ∧
      0 ≤ r.1 ∧ r.1 < (n : Int) ∧ 0 ≤ r.2 ∧ r.2 < (n : Int) ∧
      cell board r.1 r.2 = 0 := by
  unfold searchMakeMove
  by_cases hop : isOpening board = true
  · rw [if_pos hop]
    exact openingMove_safe n board choice hwf hn hchoice hempty
  · rw [if_neg hop]
    have hstones : stoneCount board ≠ 0 := by
      unfold isOpening at hop
      intro hz
      exact hop (decide_eq_true (by omega))
    have hcl := candList_ne_nil n board hwf (by omega) hstones hempty
    obtain ⟨h1ne, h1sub⟩ := layer1_sub_ne qeval board hcl
    obtain ⟨h2ne, h2sub⟩ := layer2_sub_ne player abDepth board _ h1ne
    obtain ⟨r, hr, hrmem⟩ := layer3_mem player mmDepth board _ h2ne
    refine ⟨r, hr, ?_⟩
    have hrc : r ∈ candList board := h1sub _ (h2sub _ hrmem)
    have h3 := ((mem_candList board r).mp hrc).2
    have h4 := ((mem_getCandidateMoves board hstones r).mp h3).1
    unfold candOK at h4
    have hsh0 : shape0 board = n := hwf.1
    rw [hsh0] at h4
    exact h4

/-- A 5×5 board with three stones (past the opening) and empty cells. -/
def bC10 : Board :=
  [[1, 2, 1, 0, 0], [0, 0, 0, 0, 0], [0, 0, 0, 0, 0], [0, 0, 0, 0, 0],
    [0, 0, 0, 0, 0]]

theorem searchMakeMove_safe_witness :
    ∃ r : Int × Int,
      searchMakeMove 1 5 4 (fun l => l.headD (0, 0)) (fun _ _ => 0) bC10 =
        some r ∧
      0 ≤ r.1 ∧ r.1 < (5 : Int) ∧ 0 ≤ r.2 ∧ r.2 < (5 : Int) ∧
      cell bC10 r.1 r.2 = 0 := by
  have h := searchMakeMove_safe 5 bC10 1 5 4 (fun l => l.headD (0, 0))
    (fun _ _ => 0) (by omega) (by decide)
    (fun l hl => by
      cases l with
      | nil => exact absurd rfl hl
      | cons a t => exact List.mem_cons_self a t)
    ⟨((0 : Int), (3 : Int)), by decide⟩
  exact_mod_cast h

end Gomoku
